/-
Verification of the subtree-manipulation engine (jj-vcs subtree module).

Shallow embedding of:
  - src/lib/src/subtree/metadata.rs  (SubtreeMetadata codec)
  - src/lib/src/subtree/core.rs      (move_tree_to_prefix, extract_subtree,
                                      filter_commits_by_prefix)
  - src/lib/src/subtree/backend.rs   (SubtreeBackend trait, LocalSubtreeBackend,
                                      create_subtree_backend)
  - src/lib/src/subtree/git_backend.rs (GitSubtreeBackend)

Rust strings are modelled as `List Char`; repository paths as lists of
components; commit ids as byte lists.  External collaborators that the
module consumes through narrow interfaces (the trailer parser, RepoPath,
MergedTree and its builder, the git subprocess) are modelled from the spec,
as noted on each definition.
-/
import Mathlib

/-! ### Strings -/

/-- Rust `String` / `&str`, modelled as a list of characters. -/
abbrev Str : Type := List Char

/-- Convert a Lean string literal to the `Str` model. -/
def strOf (s : String) : Str := s.data

/-- Rust `char::is_whitespace`, restricted to the ASCII whitespace
characters (the descriptions handled by this module are ASCII). -/
def isWsChar (c : Char) : Bool :=
  c = ' ' || c = '\t' || c = '\n' || c = '\x0d' || c = '\x0b' || c = '\x0c'

/-- Rust `str::trim_start`. -/
def trimStart (s : Str) : Str := s.dropWhile isWsChar

/-- Rust `str::trim_end`. -/
def trimEnd (s : Str) : Str := (s.reverse.dropWhile isWsChar).reverse

/-- Rust `str::trim`. -/
def trimStr (s : Str) : Str := trimEnd (trimStart s)

/-- Split a string at every occurrence of `sep` (n separators yield n+1
pieces, like Rust `str::split`). -/
def splitSep (sep : Char) : Str → List Str
  | [] => [[]]
  | c :: rest =>
    if c = sep then [] :: splitSep sep rest
    else
      match splitSep sep rest with
      | [] => [[c]]
      | l :: ls => (c :: l) :: ls

/-- Split a string into its lines. -/
def splitNl (s : Str) : List Str := splitSep '\n' s

/-- Join pieces with a separator character (Rust `[..].join`). -/
def joinWith (sep : Char) : List Str → Str
  | [] => []
  | [c] => c
  | c :: rest => c ++ sep :: joinWith sep rest

/-- The final paragraph of a list of lines: drop trailing blank lines, then
take the trailing run of non-blank lines. -/
def lastParagraph (ls : List Str) : List Str :=
  ((ls.reverse.dropWhile List.isEmpty).takeWhile (fun l => !l.isEmpty)).reverse

/-- Rust `str::contains` (substring test). -/
def containsSub (needle : Str) : Str → Bool
  | [] => needle.isEmpty
  | c :: rest => List.isPrefixOf needle (c :: rest) || containsSub needle rest

/-! ### Repository paths

`RepoPath` / `RepoPathBuf` live outside `src/` (spec section 3): a
slash-delimited normalized relative path with a distinguished root, here a
list of components.  The operations below are modelled from the spec. -/

/-- A repository path as its list of slash-separated components; the root
path is the empty list. -/
abbrev RepoPathBuf : Type := List Str

/-- Modelled from the spec: `RepoPath::as_internal_file_string` renders the
components joined by `/` (the root renders as the empty string). -/
def as_internal_file_string (p : RepoPathBuf) : Str := joinWith '/' p

/-- A single path component is valid when it is non-empty and is neither
`.` nor `..` (slashes cannot occur: components arise from splitting on
`/`). -/
def validComp (c : Str) : Bool :=
  !c.isEmpty && !(c = strOf ".") && !(c = strOf "..")

/-- Modelled from the spec: `RepoPath::from_internal_string` parses a
slash-delimited normalized relative path, rejecting empty, `.` and `..`
components; the empty string denotes the root. -/
def from_internal_string (s : Str) : Option RepoPathBuf :=
  if s.isEmpty then some []
  else
    let cs := splitSep '/' s
    if cs.all validComp then some cs else none

/-- Well-formedness of a `RepoPathBuf` as stored inside jj: components are
non-empty, contain no slash and no newline, and are neither `.` nor `..`. -/
def ValidPath (p : RepoPathBuf) : Prop :=
  ∀ c ∈ p, c ≠ [] ∧ '/' ∉ c ∧ '\n' ∉ c ∧ c ≠ strOf "." ∧ c ≠ strOf ".."

/-! ### Commit ids

`CommitId` (a content-addressed object id) lives outside `src/`; modelled
from the spec as a byte string with lowercase-hex rendering. -/

/-- A byte. -/
abbrev Byte : Type := Fin 256

/-- A commit id is a byte string. -/
abbrev CommitId : Type := List Byte

/-- The lowercase hex digits. -/
def hexChars : Str := strOf "0123456789abcdef"

/-- The lowercase hex digit of a nibble. -/
def hexDigit (n : Nat) : Char := hexChars.getD n 'x'

/-- The two hex digits of a byte. -/
def byteHex (b : Byte) : Str := [hexDigit (b.val / 16), hexDigit (b.val % 16)]

/-- Modelled from the spec: `ObjectId::hex` renders an id in lowercase
hex. -/
def hex (id : CommitId) : Str := id.foldr (fun b acc => byteHex b ++ acc) []

/-- The value of one hex digit (either case), if any. -/
def hexCharVal (c : Char) : Option Nat :=
  if c = '0' then some 0 else if c = '1' then some 1
  else if c = '2' then some 2 else if c = '3' then some 3
  else if c = '4' then some 4 else if c = '5' then some 5
  else if c = '6' then some 6 else if c = '7' then some 7
  else if c = '8' then some 8 else if c = '9' then some 9
  else if c = 'a' then some 10 else if c = 'b' then some 11
  else if c = 'c' then some 12 else if c = 'd' then some 13
  else if c = 'e' then some 14 else if c = 'f' then some 15
  else if c = 'A' then some 10 else if c = 'B' then some 11
  else if c = 'C' then some 12 else if c = 'D' then some 13
  else if c = 'E' then some 14 else if c = 'F' then some 15
  else none

/-- Modelled from the spec: `CommitId::try_from_hex` decodes an
even-length hex string to bytes, `none` on any non-hex character or odd
length. -/
def try_from_hex : Str → Option CommitId
  | [] => some []
  | [_] => none
  | c1 :: c2 :: rest =>
    match hexCharVal c1, hexCharVal c2, try_from_hex rest with
    | some h, some l, some ids =>
      if hlt : 16 * h + l < 256 then some (⟨16 * h + l, hlt⟩ :: ids) else none
    | _, _, _ => none

/-! ### Trailers

`crate::trailer::parse_description_trailers` is code of this repository
that is not under `src/`. -/

/-- A `key: value` trailer line. -/
structure Trailer where
  key : Str
  value : Str
  deriving DecidableEq

/-- Parse one trailer line: the key is everything before the first colon
(must be non-empty), the value is the rest with one following space
consumed. -/
def parseTrailerLine (l : Str) : Option Trailer :=
  match splitAtColon l with
  | none => none
  | some (k, r) => if k.isEmpty then none else some ⟨k, dropOneSpace r⟩
where
  splitAtColon : Str → Option (Str × Str)
    | [] => none
    | c :: rest =>
      if c = ':' then some ([], rest)
      else
        match splitAtColon rest with
        | none => none
        | some (k, v) => some (c :: k, v)
  dropOneSpace : Str → Str
    | ' ' :: r => r
    | r => r

/-- Modelled from the spec: `parse_description_trailers` extracts
trailer-formatted `key: value` lines from the tail of a commit
description, i.e. from its final paragraph. -/
def parse_description_trailers (d : Str) : List Trailer :=
  (lastParagraph (splitNl d)).filterMap parseTrailerLine

/-! ### SubtreeMetadata (src/lib/src/subtree/metadata.rs) -/

/-- The three optional trailer fields embedded in commit descriptions. -/
structure SubtreeMetadata where
  subtree_dir : Option RepoPathBuf
  mainline_commit : Option CommitId
  split_commit : Option CommitId
  deriving DecidableEq

namespace SubtreeMetadata

/-- `SubtreeMetadata::default()`: all fields unset. -/
def default : SubtreeMetadata := ⟨none, none, none⟩

/-- `SubtreeMetadata::with_dir`. -/
def with_dir (dir : RepoPathBuf) : SubtreeMetadata := ⟨some dir, none, none⟩

/-- One iteration of the trailer loop in `SubtreeMetadata::parse`: a
recognized key whose value parses updates the matching field; anything
else leaves the record unchanged. -/
def step (m : SubtreeMetadata) (t : Trailer) : SubtreeMetadata :=
  if t.key = strOf "git-subtree-dir" then
    match from_internal_string t.value with
    | some p => { m with subtree_dir := some p }
    | none => m
  else if t.key = strOf "git-subtree-mainline" then
    match try_from_hex t.value with
    | some id => { m with mainline_commit := some id }
    | none => m
  else if t.key = strOf "git-subtree-split" then
    match try_from_hex t.value with
    | some id => { m with split_commit := some id }
    | none => m
  else m

/-- `SubtreeMetadata::parse`: fold the recognized trailers of a
description over an all-unset record. -/
def parse (description : Str) : SubtreeMetadata :=
  (parse_description_trailers description).foldl step default

/-- The trailer lines emitted by `format_trailers`, in the fixed order
dir, mainline, split, only for the fields that are set. -/
def trailerLines (m : SubtreeMetadata) : List Str :=
  (match m.subtree_dir with
   | some dir => [strOf "git-subtree-dir: " ++ as_internal_file_string dir]
   | none => []) ++
  (match m.mainline_commit with
   | some id => [strOf "git-subtree-mainline: " ++ hex id]
   | none => []) ++
  (match m.split_commit with
   | some id => [strOf "git-subtree-split: " ++ hex id]
   | none => [])

/-- `SubtreeMetadata::format_trailers`: the set fields, one line each,
joined by newlines with one trailing newline; empty when no field is
set. -/
def format_trailers (m : SubtreeMetadata) : Str :=
  let lines := trailerLines m
  if lines.isEmpty then [] else joinWith '\n' lines ++ ['\n']

/-- `SubtreeMetadata::add_to_description`: unchanged description for empty
metadata; otherwise trim trailing whitespace and append the trailer block
(the `ends_with('\n')` branch of the source is kept even though trimming
has already removed any trailing newline). -/
def add_to_description (m : SubtreeMetadata) (description : Str) : Str :=
  let trailers := format_trailers m
  if trailers.isEmpty then description
  else
    let d := trimEnd description
    if d.isEmpty then trailers
    else if d.getLast? = some '\n' then d ++ '\n' :: trailers
    else d ++ '\n' :: '\n' :: trailers

/-- `SubtreeMetadata::has_metadata`: any trailer with one of the three
recognized keys. -/
def has_metadata (description : Str) : Bool :=
  (parse_description_trailers description).any fun t =>
    decide (t.key = strOf "git-subtree-dir") ||
    decide (t.key = strOf "git-subtree-mainline") ||
    decide (t.key = strOf "git-subtree-split")

/-- `SubtreeMetadata::is_empty`. -/
def is_empty (m : SubtreeMetadata) : Bool :=
  m.subtree_dir.isNone && m.mainline_commit.isNone && m.split_commit.isNone

end SubtreeMetadata

/-! ### Trees (src/lib/src/subtree/core.rs and its collaborators)

`MergedTree` lives outside `src/` (spec section 3): an immutable value
fully determined by its path-to-value mapping; `entries()` enumerates its
file-level `(path, value)` pairs (each path once, never the root), and
`MergedTreeBuilder` accumulates `set_or_remove` edits on the empty tree.
Modelled from the spec: a tree is its entry list, the builder folds
overwriting inserts. -/

/-- A file-level tree value (a content-addressed id; relocation never
recomputes it). -/
abbrev Val : Type := Str

/-- A tree, given by its list of `(path, value)` entries. -/
abbrev MergedTree : Type := List (RepoPathBuf × Val)

/-- The value stored at a path, if any (the path-to-value mapping of the
tree). -/
def tlookup (t : MergedTree) (p : RepoPathBuf) : Option Val :=
  (t.find? fun e => decide (e.1 = p)).map (·.2)

/-- One `set_or_remove` edit with a present value: overwrite the binding
if the path is already bound, otherwise append it. -/
def treeSet (t : MergedTree) (p : RepoPathBuf) (v : Val) : MergedTree :=
  if t.any (fun e => decide (e.1 = p)) then
    t.map fun e => if e.1 = p then (p, v) else e
  else t ++ [(p, v)]

/-- Modelled from the spec: `MergedTreeBuilder` starting from the empty
tree, applying the edits in order, then `write_tree`. -/
def buildTree (edits : List (RepoPathBuf × Val)) : MergedTree :=
  edits.foldl (fun acc e => treeSet acc e.1 e.2) []

/-- `SubtreeError` (subtree/core.rs). -/
inductive SubtreeError where
  | Backend (message : Str)
  | InvalidPrefix (message : Str)
  | PrefixConflict (path : RepoPathBuf)
  | NoSubtreeAtPrefix (path : RepoPathBuf)
  deriving DecidableEq

deriving instance DecidableEq for Except

/-- A store-level run of a tree operation: the trees written to the store,
and the result. -/
structure StoreRun (α : Type) where
  writes : List MergedTree
  result : Except SubtreeError α

/-- The message used by both root-prefix guards in subtree/core.rs. -/
def rootPrefixMsg : Str := strOf "prefix cannot be the repository root"

/-- `join_paths` (subtree/core.rs): either operand being root is identity,
otherwise concatenation with `/`, which on components is list append. -/
def join_paths (pfx suffix : RepoPathBuf) : RepoPathBuf :=
  if pfx = [] then suffix
  else if suffix = [] then pfx
  else pfx ++ suffix

/-- Modelled from the spec: `RepoPath::strip_prefix` removes a leading
component-wise prefix, `none` when the path is not under it. -/
def strip_prefix (p pfx : RepoPathBuf) : Option RepoPathBuf :=
  if List.isPrefixOf pfx p then some (p.drop pfx.length) else none

/-- Modelled from the spec: `PrefixMatcher::new([pfx])` matches the files
at or under `pfx`. -/
def matchesPrefix (pfx p : RepoPathBuf) : Bool := List.isPrefixOf pfx p

/-- `move_tree_to_prefix` (subtree/core.rs): reject the root prefix
without writing; otherwise write the tree built from every source entry
re-rooted at `join_paths pfx path`. -/
def move_tree_to_prefix (source_tree : MergedTree) (pfx : RepoPathBuf) : StoreRun MergedTree :=
  if pfx = [] then ⟨[], .error (.InvalidPrefix rootPrefixMsg)⟩
  else
    let r := buildTree (source_tree.map fun e => (join_paths pfx e.1, e.2))
    ⟨[r], .ok r⟩

/-- `extract_subtree` (subtree/core.rs): reject the root prefix without
writing; otherwise write the tree built from the prefix-matching entries
with the prefix stripped, skipping the prefix node itself. -/
def extract_subtree (source_tree : MergedTree) (pfx : RepoPathBuf) : StoreRun MergedTree :=
  if pfx = [] then ⟨[], .error (.InvalidPrefix rootPrefixMsg)⟩
  else
    let edits := (source_tree.filter fun e => matchesPrefix pfx e.1).filterMap
      fun e =>
        match strip_prefix e.1 pfx with
        | some rel => if rel = [] then none else some (rel, e.2)
        | none => none
    let r := buildTree edits
    ⟨[r], .ok r⟩

/-! ### Commits and the history filter -/

/-- A commit: its (resolved) tree and its parent ids. -/
structure Commit where
  tree : MergedTree
  parent_ids : List CommitId
  deriving DecidableEq

/-- The repository as seen by the history filter: `store().get_commit`. -/
structure RepoModel where
  commits : CommitId → Option Commit

/-- Modelled from the spec: the matcher-scoped diff stream between two
trees, as the list of paths at or under `pfx` whose values differ. -/
def diffList (t1 t2 : MergedTree) (pfx : RepoPathBuf) : List RepoPathBuf :=
  ((t1.map Prod.fst ++ t2.map Prod.fst).dedup).filter fun p =>
    matchesPrefix pfx p && decide (tlookup t1 p ≠ tlookup t2 p)

/-- The comparison tree of `commit_modifies_prefix` (subtree/core.rs): the
empty tree for a parentless commit, otherwise the first parent's tree
(fetching the parent can fail in the store). -/
def comparison_tree (repo : RepoModel) (c : Commit) : Except SubtreeError MergedTree :=
  match c.parent_ids with
  | [] => .ok []
  | pid :: _ =>
    match repo.commits pid with
    | none => .error (.Backend (strOf "commit not found"))
    | some parent => .ok parent.tree

/-- `commit_modifies_prefix` (subtree/core.rs): whether the matcher-scoped
diff stream between the comparison tree and the commit's tree yields any
entry. -/
def commit_modifies_prefix (repo : RepoModel) (c : Commit) (pfx : RepoPathBuf) :
    Except SubtreeError Bool :=
  match comparison_tree repo c with
  | .error e => .error e
  | .ok parent_tree => .ok (!(diffList parent_tree c.tree pfx).isEmpty)

/-- The sequential loop of `filter_commits_by_prefix`. -/
def filterGo (repo : RepoModel) (pfx : RepoPathBuf) :
    List Commit → Except SubtreeError (List (Commit × Bool))
  | [] => .ok []
  | c :: rest =>
    match commit_modifies_prefix repo c pfx with
    | .error e => .error e
    | .ok b =>
      match filterGo repo pfx rest with
      | .error e => .error e
      | .ok r => .ok ((c, b) :: r)

/-- `filter_commits_by_prefix` (subtree/core.rs). -/
def filter_commits_by_prefix (repo : RepoModel) (commits : List Commit)
    (pfx : RepoPathBuf) : Except SubtreeError (List (Commit × Bool)) :=
  filterGo repo pfx commits

/-! ### Backend abstraction (subtree/backend.rs, subtree/git_backend.rs)

The git subprocess is an external collaborator; each invocation's outcome
is supplied by an oracle `GitEnv`.  A backend operation returns the list
of subprocess invocations it performed, in order, together with its
result. -/

/-- The outcome of one git subprocess invocation. -/
structure Output where
  success : Bool
  stdout : Str
  stderr : Str
  deriving DecidableEq

/-- The git command lines issued by the subtree backend (argument lists as
built in git_backend.rs). -/
inductive GitCmd where
  | remoteRemove
  | remoteAdd (repository : Str)
  | fetchCmd (refspec : Str)
  | revParse (r : Str)
  | updateRefDelete (r : Str)
  | pushCmd (refspec : Str)
  deriving DecidableEq

/-- The subprocess oracle: spawning a command either fails outright
(`.error` with an io message) or yields an `Output`. -/
structure GitEnv where
  spawn : GitCmd → Except Str Output

/-- `SubtreeBackendError` (subtree/backend.rs); the transparent wrappers
around external git error types carry their message. -/
inductive SubtreeBackendError where
  | RemoteNotSupported
  | FetchFailed (repository : Str) (message : Str)
  | PushFailed (repository : Str) (message : Str)
  | RemoteNotFound (name : Str)
  | RefNotFound (r : Str)
  | GitSubprocess (message : Str)
  | GitFetch (message : Str)
  | GitPush (message : Str)
  | Backend (message : Str)
  deriving DecidableEq

/-- `SUBTREE_TEMP_REMOTE` (git_backend.rs). -/
def SUBTREE_TEMP_REMOTE : Str := strOf "jj-subtree-temp"

/-- `SUBTREE_FETCH_REF_NAMESPACE` (git_backend.rs). -/
def SUBTREE_FETCH_REF_NAMESPACE : Str := strOf "refs/jj/subtree-fetch"

/-- `GitSubtreeBackend::run_git_command`: spawn the command; a spawn
failure is mapped to `FetchFailed` with the temp remote name as the
repository field. -/
def run_git_command (env : GitEnv) (c : GitCmd) :
    List GitCmd × Except SubtreeBackendError Output :=
  ([c],
   match env.spawn c with
   | .error e =>
     .error (.FetchFailed SUBTREE_TEMP_REMOTE
       (strOf "Failed to execute git command: " ++ e))
   | .ok o => .ok o)

/-- `GitSubtreeBackend::setup_temp_remote`: best-effort removal of a stale
temp remote (outcome dropped), then `remote add`; a non-success add is a
`FetchFailed` naming the caller's repository. -/
def setup_temp_remote (env : GitEnv) (repository : Str) :
    List GitCmd × Except SubtreeBackendError Unit :=
  match run_git_command env (.remoteAdd repository) with
  | (ta, .error e) => (GitCmd.remoteRemove :: ta, .error e)
  | (ta, .ok o) =>
    (GitCmd.remoteRemove :: ta,
     if o.success then .ok ()
     else .error (.FetchFailed repository
       (strOf "Failed to create temporary remote: " ++ o.stderr)))

/-- `GitSubtreeBackend::cleanup_temp_remote`: remove the temp remote,
ignoring the outcome. -/
def cleanup_temp_remote : List GitCmd := [GitCmd.remoteRemove]

/-- `GitSubtreeBackend::fetch_from_temp_remote`: fetch the (qualified)
remote ref into the reserved local namespace, rev-parse it, decode the
hash, then best-effort delete the local ref. -/
def fetch_from_temp_remote (env : GitEnv) (remote_ref : Str) :
    List GitCmd × Except SubtreeBackendError CommitId :=
  let fetch_ref :=
    if List.isPrefixOf (strOf "refs/") remote_ref then remote_ref
    else strOf "refs/heads/" ++ remote_ref
  let local_ref := SUBTREE_FETCH_REF_NAMESPACE ++ '/' :: remote_ref
  let refspec := fetch_ref ++ ':' :: local_ref
  match run_git_command env (.fetchCmd refspec) with
  | (ta, .error e) => (ta, .error e)
  | (ta, .ok o) =>
    if !o.success then
      (ta, .error (.FetchFailed SUBTREE_TEMP_REMOTE o.stderr))
    else
      match run_git_command env (.revParse local_ref) with
      | (tb, .error e) => (ta ++ tb, .error e)
      | (tb, .ok o2) =>
        if !o2.success then
          (ta ++ tb, .error (.RefNotFound remote_ref))
        else
          let oid_hex := trimStr o2.stdout
          match try_from_hex oid_hex with
          | none =>
            (ta ++ tb, .error (.FetchFailed SUBTREE_TEMP_REMOTE
              (strOf "Invalid commit hash: " ++ oid_hex)))
          | some cid =>
            (ta ++ tb ++ [GitCmd.updateRefDelete local_ref], .ok cid)

/-- `GitSubtreeBackend::fetch_impl`: set up the temp remote, attempt the
fetch, always clean up, return the attempt's result. -/
def fetch_impl (env : GitEnv) (repository remote_ref : Str) :
    List GitCmd × Except SubtreeBackendError CommitId :=
  match setup_temp_remote env repository with
  | (t1, .error e) => (t1, .error e)
  | (t1, .ok _) =>
    (t1 ++ (fetch_from_temp_remote env remote_ref).1 ++ cleanup_temp_remote,
     (fetch_from_temp_remote env remote_ref).2)

/-- `GitSubtreeBackend::push_to_temp_remote`: push
`[+]<commit-hex>:<qualified-ref>` to the temp remote, surfacing an
explicit rejection from the porcelain output, otherwise a generic failure
from stderr. -/
def push_to_temp_remote (env : GitEnv) (local_commit : CommitId)
    (remote_ref : Str) (force : Bool) :
    List GitCmd × Except SubtreeBackendError Unit :=
  let qualified_name :=
    if List.isPrefixOf (strOf "refs/") remote_ref then remote_ref
    else strOf "refs/heads/" ++ remote_ref
  let refspec :=
    (if force then '+' :: hex local_commit else hex local_commit) ++
      ':' :: qualified_name
  match run_git_command env (.pushCmd refspec) with
  | (ta, .error e) => (ta, .error e)
  | (ta, .ok o) =>
    if !o.success then
      if containsSub (strOf "![rejected]") o.stdout ||
         containsSub (strOf "! [rejected]") o.stdout then
        (ta, .error (.PushFailed SUBTREE_TEMP_REMOTE
          (strOf "Push rejected: " ++ o.stdout)))
      else
        (ta, .error (.PushFailed SUBTREE_TEMP_REMOTE o.stderr))
    else (ta, .ok ())

/-- `GitSubtreeBackend::push_impl`: set up the temp remote, attempt the
push, always clean up, return the attempt's result. -/
def push_impl (env : GitEnv) (repository : Str) (local_commit : CommitId)
    (remote_ref : Str) (force : Bool) :
    List GitCmd × Except SubtreeBackendError Unit :=
  match setup_temp_remote env repository with
  | (t1, .error e) => (t1, .error e)
  | (t1, .ok _) =>
    (t1 ++ (push_to_temp_remote env local_commit remote_ref force).1 ++
       cleanup_temp_remote,
     (push_to_temp_remote env local_commit remote_ref force).2)

/-- The behaviour of a `SubtreeBackend` trait object: each remote
operation, given the subprocess oracle, yields its subprocess trace and
result; plus the support query. -/
structure BackendOps where
  fetch_remote : GitEnv → Str → Str →
    List GitCmd × Except SubtreeBackendError CommitId
  push_remote : GitEnv → Str → CommitId → Str → Bool →
    List GitCmd × Except SubtreeBackendError Unit
  supports_remote_operations : Bool

/-- `GitSubtreeBackend` as a trait object (its async wrappers run the
blocking impls). -/
def gitSubtreeBackend : BackendOps where
  fetch_remote := fetch_impl
  push_remote := push_impl
  supports_remote_operations := true

/-- `LocalSubtreeBackend` as a trait object: no subprocess activity, every
remote operation fails with `RemoteNotSupported`, support query false. -/
def localSubtreeBackend : BackendOps where
  fetch_remote := fun _ _ _ => ([], .error .RemoteNotSupported)
  push_remote := fun _ _ _ _ _ => ([], .error .RemoteNotSupported)
  supports_remote_operations := false

/-- The repository's store, as the factory sees it: whether
`get_git_backend` succeeds on it. -/
structure StoreModel where
  gitBacked : Bool

/-- `create_subtree_backend` (subtree/backend.rs): the git backend when
the store is git-backed, otherwise the local no-op backend. -/
def create_subtree_backend (store : StoreModel) : BackendOps :=
  if store.gitBacked then gitSubtreeBackend else localSubtreeBackend

/-! ### Concrete inputs used by witnesses and counterexamples -/

/-- A tree whose entries all lie under `vendor/lib`. -/
def c1TreeW : MergedTree :=
  [([strOf "vendor", strOf "lib", strOf "a.rs"], strOf "content a"),
   ([strOf "vendor", strOf "lib", strOf "b"], strOf "content b")]

/-- The prefix `vendor/lib`. -/
def vendorLib : RepoPathBuf := [strOf "vendor", strOf "lib"]

/-- Commit id `00`. -/
def idA : CommitId := [(0 : Fin 256)]

/-- Commit id `01`. -/
def idB : CommitId := [(1 : Fin 256)]

/-- Root commit adding `vendor/lib/file.rs`. -/
def commitA : Commit :=
  ⟨[([strOf "vendor", strOf "lib", strOf "file.rs"], strOf "v1")], []⟩

/-- Child of `commitA` adding the unrelated `src/main.rs`. -/
def commitB : Commit :=
  ⟨[([strOf "vendor", strOf "lib", strOf "file.rs"], strOf "v1"),
    ([strOf "src", strOf "main.rs"], strOf "m1")], [idA]⟩

/-- Child of `commitB` modifying `vendor/lib/file.rs`. -/
def commitC : Commit :=
  ⟨[([strOf "vendor", strOf "lib", strOf "file.rs"], strOf "v2"),
    ([strOf "src", strOf "main.rs"], strOf "m1")], [idB]⟩

/-- A store holding `commitA` and `commitB`. -/
def c4RepoW : RepoModel :=
  ⟨fun cid => if cid = idA then some commitA
    else if cid = idB then some commitB else none⟩

/-- An oracle whose every subprocess invocation succeeds silently. -/
def envOkW : GitEnv := ⟨fun _ => .ok ⟨true, [], []⟩⟩

/-- An oracle where only the `git fetch` invocation fails (stderr
`boom`). -/
def envFetchFailW : GitEnv :=
  ⟨fun c => match c with
    | .fetchCmd _ => .ok ⟨false, [], strOf "boom"⟩
    | _ => .ok ⟨true, [], []⟩⟩

/-- An oracle where only the `git push` invocation fails (stderr
`denied`, no rejection marker on stdout). -/
def envPushFailW : GitEnv :=
  ⟨fun c => match c with
    | .pushCmd _ => .ok ⟨false, [], strOf "denied"⟩
    | _ => .ok ⟨true, [], []⟩⟩

/-- Metadata with a directory and a mainline commit set. -/
def c2MetaW : SubtreeMetadata :=
  ⟨some [strOf "vendor", strOf "lib"], some [(171 : Fin 256)], none⟩

/-! ### String lemmas -/

theorem splitSep_ne_nil (sep : Char) (s : Str) : splitSep sep s ≠ [] := by
  induction s with
  | nil => simp [splitSep]
  | cons c rest ih =>
    simp only [splitSep]
    split
    · simp
    · cases h : splitSep sep rest with
      | nil => simp
      | cons l ls => simp [h]

theorem splitSep_append (sep : Char) (x y : Str) :
    splitSep sep (x ++ sep :: y) = splitSep sep x ++ splitSep sep y := by
  induction x with
  | nil => simp [splitSep]
  | cons c rest ih =>
    by_cases hc : c = sep
    · subst hc
      simp [splitSep, ih]
    · cases h : splitSep sep rest with
      | nil => exact absurd h (splitSep_ne_nil sep rest)
      | cons l ls => simp [splitSep, if_neg hc, ih, h]

theorem splitSep_no_sep (sep : Char) (x : Str) (h : sep ∉ x) :
    splitSep sep x = [x] := by
  induction x with
  | nil => rfl
  | cons c rest ih =>
    have hc : ¬(c = sep) := fun hcc => h (hcc ▸ List.mem_cons_self c rest)
    have hr : sep ∉ rest := fun hm => h (List.mem_cons_of_mem c hm)
    simp only [splitSep, if_neg hc, ih hr]

theorem splitSep_joinWith (sep : Char) (l : List Str) (hl : l ≠ [])
    (h : ∀ c ∈ l, sep ∉ c) : splitSep sep (joinWith sep l) = l := by
  induction l with
  | nil => exact absurd rfl hl
  | cons a rest ih =>
    cases rest with
    | nil => exact splitSep_no_sep sep a (h a (List.mem_cons_self a []))
    | cons b rs =>
      have : joinWith sep (a :: b :: rs) = a ++ sep :: joinWith sep (b :: rs) := rfl
      rw [this, splitSep_append, splitSep_no_sep sep a (h a (List.mem_cons_self _ _)),
        ih (by simp) (fun c hc => h c (List.mem_cons_of_mem a hc))]
      rfl

theorem takeWhile_all {α : Type} (p : α → Bool) (l : List α)
    (h : ∀ a ∈ l, p a = true) : l.takeWhile p = l := by
  induction l with
  | nil => rfl
  | cons a rest ih =>
    rw [List.takeWhile_cons, if_pos (h a (List.mem_cons_self a rest)),
      ih fun b hb => h b (List.mem_cons_of_mem a hb)]

theorem takeWhile_append_stop {α : Type} (p : α → Bool) (xs : List α) (y : α)
    (ys : List α) (hx : ∀ a ∈ xs, p a = true) (hy : p y = false) :
    (xs ++ y :: ys).takeWhile p = xs := by
  induction xs with
  | nil => simp [List.takeWhile_cons, hy]
  | cons a rest ih =>
    simp only [List.cons_append, List.takeWhile_cons,
      if_pos (hx a (List.mem_cons_self a rest)),
      ih fun b hb => hx b (List.mem_cons_of_mem a hb)]

theorem dropWhile_head?_false {α : Type} (p : α → Bool) (l : List α) (c : α)
    (h : (l.dropWhile p).head? = some c) : p c = false := by
  induction l with
  | nil => simp [List.dropWhile] at h
  | cons a rest ih =>
    by_cases ha : p a = true
    · rw [List.dropWhile_cons, if_pos ha] at h
      exact ih h
    · rw [List.dropWhile_cons, if_neg ha] at h
      simp only [List.head?_cons, Option.some.injEq] at h
      subst h
      exact Bool.eq_false_iff.mpr ha

theorem trimEnd_getLast?_not_ws (s : Str) (c : Char)
    (h : (trimEnd s).getLast? = some c) : isWsChar c = false := by
  unfold trimEnd at h
  rw [List.getLast?_reverse] at h
  exact dropWhile_head?_false _ _ _ h

theorem trimEnd_getLast?_ne_nl (s : Str) : (trimEnd s).getLast? ≠ some '\n' := by
  intro h
  have := trimEnd_getLast?_not_ws s '\n' h
  simp [isWsChar] at this

theorem trimEnd_eq_nil_iff (s : Str) :
    trimEnd s = [] ↔ ∀ c ∈ s, isWsChar c = true := by
  unfold trimEnd
  rw [List.reverse_eq_nil_iff, List.dropWhile_eq_nil_iff]
  constructor
  · intro h c hc
    exact h c (List.mem_reverse.mpr hc)
  · intro h c hc
    exact h c (List.mem_reverse.mp hc)

theorem trimEnd_ne_nil (s : Str) (c : Char) (hc : c ∈ s)
    (hw : isWsChar c = false) : trimEnd s ≠ [] := by
  intro h
  rw [trimEnd_eq_nil_iff] at h
  have := h c hc
  rw [hw] at this
  exact Bool.noConfusion this

theorem notMem_joinWith (ch sep : Char) (l : List Str) (hs : ch ≠ sep)
    (h : ∀ c ∈ l, ch ∉ c) : ch ∉ joinWith sep l := by
  induction l with
  | nil => simp [joinWith]
  | cons a rest ih =>
    cases rest with
    | nil => exact h a (List.mem_cons_self a [])
    | cons b rs =>
      have : joinWith sep (a :: b :: rs) = a ++ sep :: joinWith sep (b :: rs) := rfl
      rw [this]
      intro hm
      rcases List.mem_append.mp hm with hm | hm
      · exact h a (List.mem_cons_self a _) hm
      · rcases List.mem_cons.mp hm with hm | hm
        · exact hs hm
        · exact ih (fun c hc => h c (List.mem_cons_of_mem a hc)) hm

/-- The trailing-run extraction behind `lastParagraph`, on reversed
lines: a reversed block of non-blank lines followed by either nothing or
a blank separator yields exactly the block. -/
theorem takeDropPar (L rest : List Str) (hL : L ≠ []) (h : ∀ l ∈ L, l ≠ [])
    (hrest : rest = [] ∨ ∃ rs, rest = ([] : Str) :: rs) :
    ((L.reverse ++ rest).dropWhile List.isEmpty).takeWhile
      (fun l => !l.isEmpty) = L.reverse := by
  cases hrev : L.reverse with
  | nil => exact absurd (by simpa using congrArg List.reverse hrev) hL
  | cons y ys =>
    have hy : y ∈ L := by
      have : y ∈ L.reverse := by rw [hrev]; exact List.mem_cons_self y ys
      exact List.mem_reverse.mp this
    have hyne : y.isEmpty = false := by
      cases hy' : y with
      | nil => exact absurd hy' (h y hy)
      | cons c cs => rfl
    have hally : ∀ l ∈ y :: ys, (fun l => !List.isEmpty l) l = true := by
      intro l hl
      have : l ∈ L := List.mem_reverse.mp (hrev ▸ hl)
      cases hl' : l with
      | nil => exact absurd hl' (h l this)
      | cons c cs => rfl
    rw [List.cons_append, List.dropWhile_cons, if_neg (by simp [hyne])]
    rcases hrest with hrest | ⟨rs, hrest⟩
    · subst hrest
      rw [List.append_nil]
      exact takeWhile_all _ _ hally
    · subst hrest
      have := takeWhile_append_stop (fun l => !List.isEmpty l) (y :: ys)
        ([] : Str) rs hally (by rfl)
      simpa using this

/-! ### Hex and path round-trip lemmas -/

theorem hexCharVal_hexDigit (n : Nat) (h : n < 16) :
    hexCharVal (hexDigit n) = some n := by
  interval_cases n <;> decide

theorem hexDigit_mem_hexChars (n : Nat) (h : n < 16) : hexDigit n ∈ hexChars := by
  interval_cases n <;> decide

theorem hex_cons (b : Byte) (id : CommitId) :
    hex (b :: id) = byteHex b ++ hex id := rfl

theorem try_from_hex_hex (id : CommitId) : try_from_hex (hex id) = some id := by
  induction id with
  | nil => rfl
  | cons b rest ih =>
    have hdiv : b.val / 16 < 16 := by omega
    have hmod : b.val % 16 < 16 := Nat.mod_lt _ (by norm_num)
    have hval : 16 * (b.val / 16) + b.val % 16 = b.val := by omega
    rw [hex_cons, byteHex]
    show try_from_hex (hexDigit (b.val / 16) :: hexDigit (b.val % 16) :: hex rest) = _
    rw [try_from_hex, hexCharVal_hexDigit _ hdiv, hexCharVal_hexDigit _ hmod, ih]
    simp only [hval]
    rw [dif_pos b.isLt]

theorem mem_hex_mem_hexChars (c : Char) (id : CommitId) (h : c ∈ hex id) :
    c ∈ hexChars := by
  induction id with
  | nil => simp [hex] at h
  | cons b rest ih =>
    rw [hex_cons] at h
    rcases List.mem_append.mp h with h | h
    · rcases List.mem_cons.mp h with h | h
      · exact h ▸ hexDigit_mem_hexChars _ (by omega)
      · rcases List.mem_cons.mp h with h | h
        · exact h ▸ hexDigit_mem_hexChars _ (Nat.mod_lt _ (by norm_num))
        · simp at h
    · exact ih h

theorem nl_notMem_hex (id : CommitId) : '\n' ∉ hex id := by
  intro h
  have := mem_hex_mem_hexChars '\n' id h
  revert this
  decide

theorem from_internal_as_internal (p : RepoPathBuf) (h : ValidPath p) :
    from_internal_string (as_internal_file_string p) = some p := by
  cases p with
  | nil => rfl
  | cons a rest =>
    have hval := fun c hc => h c hc
    have ha := h a (List.mem_cons_self a rest)
    have hne : as_internal_file_string (a :: rest) ≠ [] := by
      unfold as_internal_file_string
      cases rest with
      | nil => exact ha.1
      | cons b rs =>
        show a ++ '/' :: joinWith '/' (b :: rs) ≠ []
        intro hcontra
        rcases List.append_eq_nil.mp hcontra with ⟨_, h2⟩
        exact List.noConfusion h2
    unfold from_internal_string
    rw [if_neg (by simpa [List.isEmpty_iff] using hne)]
    have hsplit : splitSep '/' (as_internal_file_string (a :: rest)) = a :: rest :=
      splitSep_joinWith '/' (a :: rest) (by simp) fun c hc => (h c hc).2.1
    simp only [hsplit]
    have hall : (a :: rest).all validComp = true := by
      rw [List.all_eq_true]
      intro c hc
      rcases h c hc with ⟨h1, _, _, h4, h5⟩
      simp [validComp, List.isEmpty_iff, h1, h4, h5]
    rw [if_pos hall]

/-! ### Metadata codec lemmas -/

theorem mem_joinWith (sep : Char) (L : List Str) (l : Str) (c : Char)
    (hl : l ∈ L) (hc : c ∈ l) : c ∈ joinWith sep L := by
  induction L with
  | nil => cases hl
  | cons a rest ih =>
    cases rest with
    | nil =>
      rcases List.mem_cons.mp hl with h | h
      · exact h ▸ hc
      · cases h
    | cons b rs =>
      have hj : joinWith sep (a :: b :: rs) = a ++ sep :: joinWith sep (b :: rs) := rfl
      rw [hj]
      rcases List.mem_cons.mp hl with h | h
      · exact List.mem_append.mpr (Or.inl (h ▸ hc))
      · exact List.mem_append.mpr (Or.inr (List.mem_cons_of_mem sep (ih h)))

theorem format_trailers_eq_nil_iff (m : SubtreeMetadata) :
    SubtreeMetadata.format_trailers m = [] ↔ SubtreeMetadata.is_empty m = true := by
  rcases m with ⟨od, omc, osc⟩
  cases od <;> cases omc <;> cases osc <;>
    simp [SubtreeMetadata.format_trailers, SubtreeMetadata.trailerLines,
      SubtreeMetadata.is_empty, List.append_eq_nil]

theorem trailerLines_eq_nil_iff (m : SubtreeMetadata) :
    SubtreeMetadata.trailerLines m = [] ↔ SubtreeMetadata.is_empty m = true := by
  rcases m with ⟨od, omc, osc⟩
  cases od <;> cases omc <;> cases osc <;>
    simp [SubtreeMetadata.trailerLines, SubtreeMetadata.is_empty, List.append_eq_nil]

/-- Closed form of `add_to_description`: the `ends_with('\n')` branch of
the source is dead because `trim_end` has already removed any trailing
newline. -/
theorem add_to_description_eq (m : SubtreeMetadata) (d : Str) :
    SubtreeMetadata.add_to_description m d =
      if SubtreeMetadata.format_trailers m = [] then d
      else if trimEnd d = [] then SubtreeMetadata.format_trailers m
      else trimEnd d ++ '\n' :: '\n' :: SubtreeMetadata.format_trailers m := by
  by_cases h1 : SubtreeMetadata.format_trailers m = []
  · simp [SubtreeMetadata.add_to_description, List.isEmpty_iff, h1]
  · by_cases h2 : trimEnd d = []
    · simp [SubtreeMetadata.add_to_description, List.isEmpty_iff, h1, h2]
    · simp [SubtreeMetadata.add_to_description, List.isEmpty_iff, h1, h2,
        trimEnd_getLast?_ne_nl d]

theorem splitNl_cons_nl (s : Str) : splitNl ('\n' :: s) = [] :: splitNl s := by
  simp [splitNl, splitSep]

theorem splitNl_format_trailers (m : SubtreeMetadata)
    (hL : SubtreeMetadata.trailerLines m ≠ [])
    (hnl : ∀ l ∈ SubtreeMetadata.trailerLines m, '\n' ∉ l) :
    splitNl (SubtreeMetadata.format_trailers m) =
      SubtreeMetadata.trailerLines m ++ [[]] := by
  unfold SubtreeMetadata.format_trailers
  rw [if_neg (by simpa [List.isEmpty_iff] using hL)]
  have : joinWith '\n' (SubtreeMetadata.trailerLines m) ++ ['\n']
      = joinWith '\n' (SubtreeMetadata.trailerLines m) ++ '\n' :: [] := rfl
  rw [this]
  unfold splitNl
  rw [splitSep_append, splitSep_joinWith '\n' _ hL hnl]
  rfl

theorem lastParagraph_block (L : List Str) (hL : L ≠ []) (h : ∀ l ∈ L, l ≠ []) :
    lastParagraph (L ++ [[]]) = L := by
  unfold lastParagraph
  rw [List.reverse_append]
  have h0 : (([[]] : List Str)).reverse ++ L.reverse = ([] : Str) :: L.reverse := rfl
  rw [h0, List.dropWhile_cons, if_pos (by rfl)]
  have := takeDropPar L [] hL h (Or.inl rfl)
  rw [List.append_nil] at this
  rw [this, List.reverse_reverse]

theorem lastParagraph_after (xs L : List Str) (hL : L ≠ []) (h : ∀ l ∈ L, l ≠ []) :
    lastParagraph (xs ++ ([] : Str) :: (L ++ [[]])) = L := by
  unfold lastParagraph
  have hrw : (xs ++ ([] : Str) :: (L ++ [[]])).reverse
      = ([] : Str) :: (L.reverse ++ ([] : Str) :: xs.reverse) := by
    rw [List.reverse_append, List.reverse_cons, List.reverse_append]
    simp
  rw [hrw, List.dropWhile_cons, if_pos (by rfl)]
  have := takeDropPar L (([] : Str) :: xs.reverse) hL h (Or.inr ⟨xs.reverse, rfl⟩)
  rw [this, List.reverse_reverse]

theorem splitAtColon_append (k r : Str) (hc : ':' ∉ k) :
    parseTrailerLine.splitAtColon (k ++ ':' :: r) = some (k, r) := by
  induction k with
  | nil => simp [parseTrailerLine.splitAtColon]
  | cons c rest ih =>
    have hcc : ¬(c = ':') := fun h => hc (h ▸ List.mem_cons_self c rest)
    have hr : ':' ∉ rest := fun h => hc (List.mem_cons_of_mem c h)
    simp [parseTrailerLine.splitAtColon, hcc, List.append_eq, ih hr]

theorem parseTrailerLine_keyval (k v : Str) (hk : k ≠ []) (hc : ':' ∉ k) :
    parseTrailerLine (k ++ ':' :: ' ' :: v) = some ⟨k, v⟩ := by
  unfold parseTrailerLine
  rw [splitAtColon_append k (' ' :: v) hc]
  have hkk : List.isEmpty k = false := by
    cases h : k with
    | nil => exact absurd h hk
    | cons a r => rfl
  simp [hkk, parseTrailerLine.dropOneSpace]

theorem parse_dir_line (p : RepoPathBuf) :
    parseTrailerLine (strOf "git-subtree-dir: " ++ as_internal_file_string p)
      = some ⟨strOf "git-subtree-dir", as_internal_file_string p⟩ := by
  have h0 : strOf "git-subtree-dir: " = strOf "git-subtree-dir" ++ [':', ' '] := by
    decide
  rw [h0, List.append_assoc]
  exact parseTrailerLine_keyval _ _ (by decide) (by decide)

theorem parse_mainline_line (id : CommitId) :
    parseTrailerLine (strOf "git-subtree-mainline: " ++ hex id)
      = some ⟨strOf "git-subtree-mainline", hex id⟩ := by
  have h0 : strOf "git-subtree-mainline: "
      = strOf "git-subtree-mainline" ++ [':', ' '] := by decide
  rw [h0, List.append_assoc]
  exact parseTrailerLine_keyval _ _ (by decide) (by decide)

theorem parse_split_line (id : CommitId) :
    parseTrailerLine (strOf "git-subtree-split: " ++ hex id)
      = some ⟨strOf "git-subtree-split", hex id⟩ := by
  have h0 : strOf "git-subtree-split: "
      = strOf "git-subtree-split" ++ [':', ' '] := by decide
  rw [h0, List.append_assoc]
  exact parseTrailerLine_keyval _ _ (by decide) (by decide)

theorem step_dir (mm : SubtreeMetadata) (p : RepoPathBuf) (hp : ValidPath p) :
    SubtreeMetadata.step mm ⟨strOf "git-subtree-dir", as_internal_file_string p⟩
      = { mm with subtree_dir := some p } := by
  unfold SubtreeMetadata.step
  rw [if_pos rfl, from_internal_as_internal p hp]

theorem step_mainline (mm : SubtreeMetadata) (id : CommitId) :
    SubtreeMetadata.step mm ⟨strOf "git-subtree-mainline", hex id⟩
      = { mm with mainline_commit := some id } := by
  have h1 : ¬(strOf "git-subtree-mainline" = strOf "git-subtree-dir") := by decide
  simp [SubtreeMetadata.step, h1, try_from_hex_hex id]

theorem step_split (mm : SubtreeMetadata) (id : CommitId) :
    SubtreeMetadata.step mm ⟨strOf "git-subtree-split", hex id⟩
      = { mm with split_commit := some id } := by
  have h1 : ¬(strOf "git-subtree-split" = strOf "git-subtree-dir") := by decide
  have h2 : ¬(strOf "git-subtree-split" = strOf "git-subtree-mainline") := by decide
  simp [SubtreeMetadata.step, h1, h2, try_from_hex_hex id]

theorem parse_block (m : SubtreeMetadata)
    (hdir : ∀ p, m.subtree_dir = some p → ValidPath p) :
    ((SubtreeMetadata.trailerLines m).filterMap parseTrailerLine).foldl
      SubtreeMetadata.step SubtreeMetadata.default = m := by
  rcases m with ⟨od, omc, osc⟩
  cases od with
  | none =>
    cases omc <;> cases osc <;>
      simp [SubtreeMetadata.trailerLines, List.filterMap_cons, parse_mainline_line,
        parse_split_line, step_mainline, step_split, SubtreeMetadata.default]
  | some p =>
    have hp : ValidPath p := hdir p rfl
    cases omc <;> cases osc <;>
      simp [SubtreeMetadata.trailerLines, List.filterMap_cons, parse_dir_line,
        parse_mainline_line, parse_split_line, step_dir _ _ hp, step_mainline,
        step_split, SubtreeMetadata.default]

theorem dirLine_facts (p : RepoPathBuf) (hp : ValidPath p) :
    '\n' ∉ (strOf "git-subtree-dir: " ++ as_internal_file_string p) := by
  intro hmem
  rcases List.mem_append.mp hmem with h | h
  · revert h; decide
  · exact notMem_joinWith '\n' '/' p (by decide)
      (fun c hc => (hp c hc).2.2.1) h

theorem trailerLines_mem (m : SubtreeMetadata) (l : Str)
    (hl : l ∈ SubtreeMetadata.trailerLines m) :
    (∃ p, m.subtree_dir = some p ∧
      l = strOf "git-subtree-dir: " ++ as_internal_file_string p) ∨
    (∃ id, m.mainline_commit = some id ∧
      l = strOf "git-subtree-mainline: " ++ hex id) ∨
    (∃ id, m.split_commit = some id ∧
      l = strOf "git-subtree-split: " ++ hex id) := by
  unfold SubtreeMetadata.trailerLines at hl
  rcases List.mem_append.mp hl with hl | hl
  · rcases List.mem_append.mp hl with hl | hl
    · left
      cases h : m.subtree_dir with
      | none => rw [h] at hl; cases hl
      | some p => rw [h] at hl; exact ⟨p, rfl, List.mem_singleton.mp hl⟩
    · right; left
      cases h : m.mainline_commit with
      | none => rw [h] at hl; cases hl
      | some id => rw [h] at hl; exact ⟨id, rfl, List.mem_singleton.mp hl⟩
  · right; right
    cases h : m.split_commit with
    | none => rw [h] at hl; cases hl
    | some id => rw [h] at hl; exact ⟨id, rfl, List.mem_singleton.mp hl⟩

theorem trailerLines_ne_nil_mem_g (m : SubtreeMetadata) :
    ∀ l ∈ SubtreeMetadata.trailerLines m, l ≠ [] ∧ 'g' ∈ l := by
  intro l hl
  have hg : ∀ (pre x : Str), 'g' ∈ pre → 'g' ∈ pre ++ x :=
    fun pre x h => List.mem_append.mpr (Or.inl h)
  have hne : ∀ (pre x : Str), pre ≠ [] → pre ++ x ≠ [] := by
    intro pre x hpre hcontra
    exact hpre (List.append_eq_nil.mp hcontra).1
  rcases trailerLines_mem m l hl with ⟨p, _, rfl⟩ | ⟨id, _, rfl⟩ | ⟨id, _, rfl⟩
  · exact ⟨hne _ _ (by decide), hg _ _ (by decide)⟩
  · exact ⟨hne _ _ (by decide), hg _ _ (by decide)⟩
  · exact ⟨hne _ _ (by decide), hg _ _ (by decide)⟩

theorem trailerLines_no_nl (m : SubtreeMetadata)
    (hdir : ∀ p, m.subtree_dir = some p → ValidPath p) :
    ∀ l ∈ SubtreeMetadata.trailerLines m, '\n' ∉ l := by
  intro l hl
  have hhex : ∀ (pre : Str) (id : CommitId), '\n' ∉ pre → '\n' ∉ pre ++ hex id := by
    intro pre id hpre hmem
    rcases List.mem_append.mp hmem with h | h
    · exact hpre h
    · exact nl_notMem_hex id h
  rcases trailerLines_mem m l hl with ⟨p, hp, rfl⟩ | ⟨id, _, rfl⟩ | ⟨id, _, rfl⟩
  · exact dirLine_facts p (hdir p hp)
  · exact hhex _ _ (by decide)
  · exact hhex _ _ (by decide)

theorem parse_trailers_add (m : SubtreeMetadata) (d : Str)
    (hne : SubtreeMetadata.is_empty m = false)
    (hdir : ∀ p, m.subtree_dir = some p → ValidPath p) :
    parse_description_trailers (SubtreeMetadata.add_to_description m d)
      = (SubtreeMetadata.trailerLines m).filterMap parseTrailerLine := by
  have hfne : SubtreeMetadata.format_trailers m ≠ [] := by
    simp [Ne, format_trailers_eq_nil_iff, hne]
  have hLne : SubtreeMetadata.trailerLines m ≠ [] := by
    simp [Ne, trailerLines_eq_nil_iff, hne]
  have hnl := trailerLines_no_nl m hdir
  have hnil : ∀ l ∈ SubtreeMetadata.trailerLines m, l ≠ [] :=
    fun l hl => (trailerLines_ne_nil_mem_g m l hl).1
  rw [add_to_description_eq, if_neg hfne]
  by_cases h2 : trimEnd d = []
  · rw [if_pos h2]
    unfold parse_description_trailers
    rw [splitNl_format_trailers m hLne hnl, lastParagraph_block _ hLne hnil]
  · rw [if_neg h2]
    unfold parse_description_trailers
    have hsp : splitNl (trimEnd d ++ '\n' :: '\n' :: SubtreeMetadata.format_trailers m)
        = splitNl (trimEnd d) ++
            ([] : Str) :: (SubtreeMetadata.trailerLines m ++ [[]]) := by
      unfold splitNl
      rw [splitSep_append]
      have : splitSep '\n' ('\n' :: SubtreeMetadata.format_trailers m)
          = ([] : Str) :: splitSep '\n' (SubtreeMetadata.format_trailers m) := by
        simp [splitSep]
      rw [this]
      have hfmt := splitNl_format_trailers m hLne hnl
      unfold splitNl at hfmt
      rw [hfmt]
    rw [hsp, lastParagraph_after _ _ hLne hnil]

theorem g_mem_format_trailers (m : SubtreeMetadata)
    (hne : SubtreeMetadata.is_empty m = false) :
    'g' ∈ SubtreeMetadata.format_trailers m := by
  have hLne : SubtreeMetadata.trailerLines m ≠ [] := by
    simp [Ne, trailerLines_eq_nil_iff, hne]
  obtain ⟨l0, L', hL⟩ : ∃ a L', SubtreeMetadata.trailerLines m = a :: L' := by
    cases h : SubtreeMetadata.trailerLines m with
    | nil => exact absurd h hLne
    | cons a L' => exact ⟨a, L', rfl⟩
  have hl0 : l0 ∈ SubtreeMetadata.trailerLines m := by
    rw [hL]; exact List.mem_cons_self l0 L'
  have hg : 'g' ∈ l0 := (trailerLines_ne_nil_mem_g m l0 hl0).2
  unfold SubtreeMetadata.format_trailers
  rw [if_neg (by simpa [List.isEmpty_iff] using hLne)]
  exact List.mem_append.mpr (Or.inl (mem_joinWith '\n' _ l0 'g' hl0 hg))

theorem trimEnd_add_ne_nil (m : SubtreeMetadata) (d : Str)
    (hne : SubtreeMetadata.is_empty m = false) :
    trimEnd (SubtreeMetadata.add_to_description m d) ≠ [] := by
  have hfne : SubtreeMetadata.format_trailers m ≠ [] := by
    simp [Ne, format_trailers_eq_nil_iff, hne]
  have hg : 'g' ∈ SubtreeMetadata.add_to_description m d := by
    rw [add_to_description_eq, if_neg hfne]
    by_cases h2 : trimEnd d = []
    · rw [if_pos h2]; exact g_mem_format_trailers m hne
    · rw [if_neg h2]
      exact List.mem_append.mpr (Or.inr (List.mem_cons_of_mem _
        (List.mem_cons_of_mem _ (g_mem_format_trailers m hne))))
  exact trimEnd_ne_nil _ 'g' hg (by decide)

/-! ### Tree lemmas -/

theorem append_left_cancel_own {α : Type} (s t1 t2 : List α)
    (h : s ++ t1 = s ++ t2) : t1 = t2 := by
  induction s with
  | nil => exact h
  | cons a r ih =>
    apply ih
    injection h

theorem map_congr_mem {α β : Type} (l : List α) (f g : α → β)
    (h : ∀ a ∈ l, f a = g a) : l.map f = l.map g := by
  induction l with
  | nil => rfl
  | cons a rest ih =>
    simp only [List.map_cons]
    rw [h a (List.mem_cons_self a rest),
      ih fun b hb => h b (List.mem_cons_of_mem a hb)]

theorem treeSet_not_mem (t : MergedTree) (p : RepoPathBuf) (v : Val)
    (h : ∀ e ∈ t, e.1 ≠ p) : treeSet t p v = t ++ [(p, v)] := by
  unfold treeSet
  rw [if_neg]
  intro hcontra
  rcases List.any_eq_true.mp hcontra with ⟨e, he, hee⟩
  exact h e he (of_decide_eq_true hee)

theorem foldl_treeSet_acc (edits : List (RepoPathBuf × Val)) :
    ∀ acc : MergedTree, (edits.map Prod.fst).Nodup →
      (∀ e ∈ acc, ∀ e2 ∈ edits, e.1 ≠ e2.1) →
      edits.foldl (fun acc e => treeSet acc e.1 e.2) acc = acc ++ edits := by
  induction edits with
  | nil =>
    intro acc _ _
    simp
  | cons e rest ih =>
    intro acc hnodup hdisj
    rw [List.foldl_cons,
      treeSet_not_mem acc e.1 e.2
        (fun a ha => hdisj a ha e (List.mem_cons_self e rest))]
    have hnr : (rest.map Prod.fst).Nodup := (List.nodup_cons.mp hnodup).2
    have hhead : e.1 ∉ rest.map Prod.fst := (List.nodup_cons.mp hnodup).1
    rw [ih (acc ++ [(e.1, e.2)]) hnr ?_]
    · rw [List.append_assoc]
      rfl
    · intro a ha e2 he2
      rcases List.mem_append.mp ha with ha | ha
      · exact hdisj a ha e2 (List.mem_cons_of_mem e he2)
      · rcases List.mem_singleton.mp ha with rfl
        intro hcontra
        exact hhead (hcontra ▸ List.mem_map_of_mem Prod.fst he2)

theorem buildTree_eq_self (t : MergedTree) (h : (t.map Prod.fst).Nodup) :
    buildTree t = t := by
  unfold buildTree
  have := foldl_treeSet_acc t [] h (by intro e he; cases he)
  simpa using this

theorem join_paths_append (pfx q : RepoPathBuf) (hp : pfx ≠ []) (hq : q ≠ []) :
    join_paths pfx q = pfx ++ q := by
  unfold join_paths
  rw [if_neg hp, if_neg hq]

theorem extract_edits_map (l : List (RepoPathBuf × Val)) (pfx : RepoPathBuf)
    (h : ∀ e ∈ l, e.1 ≠ []) :
    (((l.map fun e => (pfx ++ e.1, e.2)).filter fun e =>
        matchesPrefix pfx e.1).filterMap fun e =>
      match strip_prefix e.1 pfx with
      | some rel => if rel = [] then none else some (rel, e.2)
      | none => none) = l := by
  induction l with
  | nil => rfl
  | cons a rest ih =>
    have hpref : matchesPrefix pfx (pfx ++ a.1) = true := by
      unfold matchesPrefix
      exact List.isPrefixOf_iff_prefix.mpr (List.prefix_append pfx a.1)
    have hstrip : strip_prefix (pfx ++ a.1) pfx = some a.1 := by
      unfold strip_prefix
      have hp2 : List.isPrefixOf pfx (pfx ++ a.1) = true :=
        List.isPrefixOf_iff_prefix.mpr (List.prefix_append pfx a.1)
      rw [if_pos hp2, List.drop_left]
    have ha := h a (List.mem_cons_self a rest)
    simp only [List.map_cons, List.filter_cons, hpref, if_pos, List.filterMap_cons,
      hstrip, if_neg ha]
    rw [ih fun e he => h e (List.mem_cons_of_mem a he)]

/-! ### Claim theorems: metadata codec -/

/-- C9: `add_to_description` returns the description unchanged when no
field of the metadata is set; otherwise it is the description with
trailing whitespace trimmed, exactly one blank line, then the trailer
block — except that when the trimmed description is empty the result is
the trailer block alone.  (That the separator is exactly one blank line
is witnessed by the second conjunct: the trimmed description never ends
in a whitespace character.) -/
theorem c9_add_description_spacing (m : SubtreeMetadata) (d : Str) :
    SubtreeMetadata.add_to_description m d =
      (if SubtreeMetadata.is_empty m = true then d
       else if trimEnd d = [] then SubtreeMetadata.format_trailers m
       else trimEnd d ++ '\n' :: '\n' :: SubtreeMetadata.format_trailers m) ∧
    Option.all (fun c => !isWsChar c) (trimEnd d).getLast? = true := by
  constructor
  · rw [add_to_description_eq]
    by_cases hm : SubtreeMetadata.is_empty m = true
    · rw [if_pos ((format_trailers_eq_nil_iff m).mpr hm), if_pos hm]
    · rw [if_neg (fun hc => hm ((format_trailers_eq_nil_iff m).mp hc)), if_neg hm]
  · cases h : (trimEnd d).getLast? with
    | none => rfl
    | some c =>
      have := trimEnd_getLast?_not_ws d c h
      simp [Option.all, this]

/-- C3 counterexample: appending the same non-empty metadata twice is not
the same as appending it once — the trailer block is duplicated. -/
theorem c3_counterexample :
    SubtreeMetadata.add_to_description ⟨some [strOf "v"], none, none⟩
        (SubtreeMetadata.add_to_description ⟨some [strOf "v"], none, none⟩
          (strOf "m"))
      ≠ SubtreeMetadata.add_to_description ⟨some [strOf "v"], none, none⟩
          (strOf "m") := by
  decide

/-- C3 (amended): the append is idempotent exactly when the metadata has
no fields set; a record with a set field appends a second copy of its
trailer block, after a blank line, on the second application. -/
theorem c3_idempotent_amended (m : SubtreeMetadata) (d : Str) :
    SubtreeMetadata.add_to_description m
        (SubtreeMetadata.add_to_description m d) =
      if SubtreeMetadata.is_empty m = true then
        SubtreeMetadata.add_to_description m d
      else trimEnd (SubtreeMetadata.add_to_description m d) ++
        '\n' :: '\n' :: SubtreeMetadata.format_trailers m := by
  by_cases hm : SubtreeMetadata.is_empty m = true
  · rw [if_pos hm, add_to_description_eq,
      if_pos ((format_trailers_eq_nil_iff m).mpr hm)]
  · have hne : SubtreeMetadata.is_empty m = false := by
      cases h : SubtreeMetadata.is_empty m
      · rfl
      · exact absurd h hm
    have hfne : SubtreeMetadata.format_trailers m ≠ [] :=
      fun hc => hm ((format_trailers_eq_nil_iff m).mp hc)
    rw [if_neg hm, add_to_description_eq, if_neg hfne,
      if_neg (trimEnd_add_ne_nil m d hne)]

/-- C10: a description whose only trailer is a recognized key with a
malformed (non-hex) value makes `has_metadata` answer true while `parse`
leaves all three fields unset: `has_metadata` checks key presence only. -/
theorem c10_has_metadata_without_fields :
    SubtreeMetadata.has_metadata (strOf "git-subtree-mainline: not-hex") = true ∧
    SubtreeMetadata.parse (strOf "git-subtree-mainline: not-hex")
      = ⟨none, none, none⟩ :=
  ⟨by decide, by decide⟩

/-- C2 counterexample: with the all-unset metadata record,
`add_to_description` returns the description unchanged, so a description
already carrying a subtree trailer parses to a set `subtree_dir` even
though the record's `subtree_dir` is unset. -/
theorem c2_counterexample :
    SubtreeMetadata.default.subtree_dir = none ∧
    (SubtreeMetadata.parse (SubtreeMetadata.add_to_description
        SubtreeMetadata.default
        (strOf "msg\n\ngit-subtree-dir: vendor\n"))).subtree_dir
      = some [strOf "vendor"] :=
  ⟨rfl, by decide⟩

/-- C2 (amended): for every metadata record with at least one field set,
whose directory path (when set) is a well-formed repository path, and for
every description, parsing the appended description recovers exactly the
record — set fields with their values, unset fields unset. -/
theorem c2_roundtrip_amended (m : SubtreeMetadata) (d : Str)
    (hne : SubtreeMetadata.is_empty m = false)
    (hdir : ∀ p, m.subtree_dir = some p → ValidPath p) :
    SubtreeMetadata.parse (SubtreeMetadata.add_to_description m d) = m := by
  unfold SubtreeMetadata.parse
  rw [parse_trailers_add m d hne hdir]
  exact parse_block m hdir

/-- Witness for C2 (amended) at a concrete record and description. -/
theorem c2_witness :
    SubtreeMetadata.is_empty c2MetaW = false ∧
    SubtreeMetadata.parse (SubtreeMetadata.add_to_description c2MetaW
      (strOf "Original message")) = c2MetaW :=
  ⟨by decide,
   c2_roundtrip_amended c2MetaW (strOf "Original message") (by decide)
     (by
       intro p hp
       simp only [c2MetaW, Option.some.injEq] at hp
       subst hp
       unfold ValidPath
       decide)⟩

/-! ### Claim theorems: tree operations -/

/-- C1: for a tree with no entries outside a non-root prefix (and
pairwise distinct entry paths, the `MergedTree` invariant), extracting at
the prefix after moving to the prefix reproduces the original tree's
path-to-value mapping exactly. -/
theorem c1_move_extract_roundtrip (t : MergedTree) (pfx : RepoPathBuf)
    (hp : pfx ≠ [])
    (hnodup : (t.map Prod.fst).Nodup)
    (hunder : ∀ e ∈ t, matchesPrefix pfx e.1 = true) :
    ∃ tm te, ( move_tree_to_prefix t pfx).result = .ok tm ∧
      (extract_subtree tm pfx).result = .ok te ∧
      ∀ p, tlookup te p = tlookup t p := by
  have hne : ∀ e ∈ t, e.1 ≠ [] := by
    intro e he hcontra
    have h2 := hunder e he
    unfold matchesPrefix at h2
    rw [hcontra] at h2
    cases pfx with
    | nil => exact hp rfl
    | cons a r => simp [List.isPrefixOf] at h2
  have hmapeq : t.map (fun e => (join_paths pfx e.1, e.2))
      = t.map (fun e => (pfx ++ e.1, e.2)) :=
    map_congr_mem t _ _ fun e he => by
      rw [join_paths_append pfx e.1 hp (hne e he)]
  have hkeys : ((t.map fun e => (pfx ++ e.1, e.2)).map Prod.fst).Nodup := by
    rw [List.map_map]
    have hcomp : (Prod.fst ∘ fun e : RepoPathBuf × Val => (pfx ++ e.1, e.2))
        = (fun q : RepoPathBuf => pfx ++ q) ∘ Prod.fst := rfl
    rw [hcomp, ← List.map_map]
    exact List.Nodup.map (fun a b hab => append_left_cancel_own pfx a b hab) hnodup
  have hmove : ( move_tree_to_prefix t pfx).result
      = .ok (t.map fun e => (pfx ++ e.1, e.2)) := by
    unfold move_tree_to_prefix
    rw [if_neg hp]
    show Except.ok (buildTree (t.map fun e => (join_paths pfx e.1, e.2)))
      = Except.ok (t.map fun e => (pfx ++ e.1, e.2))
    rw [hmapeq, buildTree_eq_self _ hkeys]
  have hextract : (extract_subtree (t.map fun e => (pfx ++ e.1, e.2)) pfx).result
      = .ok t := by
    unfold extract_subtree
    rw [if_neg hp]
    show Except.ok (buildTree ((((t.map fun e => (pfx ++ e.1, e.2)).filter fun e =>
        matchesPrefix pfx e.1).filterMap fun e =>
          match strip_prefix e.1 pfx with
          | some rel => if rel = [] then none else some (rel, e.2)
          | none => none))) = Except.ok t
    rw [extract_edits_map t pfx hne, buildTree_eq_self t hnodup]
  exact ⟨_, t, hmove, hextract, fun p => rfl⟩

/-- Witness for C1 at a concrete two-entry tree under `vendor/lib`. -/
theorem c1_witness :
    vendorLib ≠ [] ∧
    ∃ tm te, ( move_tree_to_prefix c1TreeW vendorLib).result = .ok tm ∧
      (extract_subtree tm vendorLib).result = .ok te ∧
      ∀ p, tlookup te p = tlookup c1TreeW p :=
  ⟨by decide,
   c1_move_extract_roundtrip c1TreeW vendorLib (by decide) (by decide) (by decide)⟩

/-- C5: with the root path as prefix, both `move_tree_to_prefix` and
`extract_subtree` fail with `InvalidPrefix` and write no tree to the
store, for every source tree (the empty tree included). -/
theorem c5_root_prefix_rejected (t : MergedTree) :
    ( move_tree_to_prefix t []).result = .error (.InvalidPrefix rootPrefixMsg) ∧
    ( move_tree_to_prefix t []).writes = [] ∧
    (extract_subtree t []).result = .error (.InvalidPrefix rootPrefixMsg) ∧
    (extract_subtree t []).writes = [] :=
  ⟨rfl, rfl, rfl, rfl⟩

/-! ### Claim theorems: history filter -/

/-- C4: a successful `filter_commits_by_prefix` yields one pair per input
commit, in input order (the i-th pair holds the i-th commit), and the
boolean of the i-th pair is true exactly when the matcher-scoped diff
between the commit's comparison tree (first parent's tree, or the empty
tree for a parentless commit) and the commit's own tree yields at least
one entry. -/
theorem c4_filter_spec (repo : RepoModel) (commits : List Commit)
    (pfx : RepoPathBuf) (res : List (Commit × Bool))
    (h : filter_commits_by_prefix repo commits pfx = .ok res) :
    res.length = commits.length ∧
    ∀ i (hi : i < commits.length) (hi2 : i < res.length),
      (res.get ⟨i, hi2⟩).1 = commits.get ⟨i, hi⟩ ∧
      ((res.get ⟨i, hi2⟩).2 = true ↔
        ∃ pt, comparison_tree repo (commits.get ⟨i, hi⟩) = .ok pt ∧
          diffList pt (commits.get ⟨i, hi⟩).tree pfx ≠ []) := by
  unfold filter_commits_by_prefix at h
  revert res
  induction commits with
  | nil =>
    intro res h
    simp only [filterGo] at h
    injection h with h
    subst h
    exact ⟨rfl, fun i hi _ => absurd hi (Nat.not_lt_zero i)⟩
  | cons c rest ih =>
    intro res h
    cases hc : commit_modifies_prefix repo c pfx with
    | error e =>
      simp only [filterGo, hc] at h
      exact Except.noConfusion h
    | ok b =>
      cases hr : filterGo repo pfx rest with
      | error e =>
        simp only [filterGo, hc, hr] at h
        exact Except.noConfusion h
      | ok r =>
        simp only [filterGo, hc, hr] at h
        injection h with h
        subst h
        obtain ⟨ihlen, ihspec⟩ := ih r hr
        refine ⟨by simp [ihlen], ?_⟩
        intro i hi hi2
        cases i with
        | zero =>
          refine ⟨rfl, ?_⟩
          simp only [ commit_modifies_prefix] at hc
          cases hcomp : comparison_tree repo c with
          | error e => rw [hcomp] at hc; simp at hc
          | ok pt =>
            rw [hcomp] at hc
            simp only [] at hc
            injection hc with hb
            constructor
            · intro hbt
              have hbt2 : b = true := hbt
              refine ⟨pt, hcomp, ?_⟩
              show diffList pt c.tree pfx ≠ []
              rw [← hb] at hbt2
              simpa [List.isEmpty_iff] using hbt2
            · rintro ⟨pt2, hpt2, hne⟩
              have hpt2x : comparison_tree repo c = Except.ok pt2 := hpt2
              have hnex : diffList pt2 c.tree pfx ≠ [] := hne
              rw [hcomp] at hpt2x
              injection hpt2x with hpt2x
              subst hpt2x
              show b = true
              rw [← hb]
              simpa [List.isEmpty_iff] using hnex
        | succ n =>
          have hi' : n < rest.length := by simpa using hi
          have hi2' : n < r.length := by simpa using hi2
          have hn := ihspec n hi' hi2'
          simpa using hn

/-- Witness for C4: three commits where the first and third touch
`vendor/lib` relative to their comparison trees and the second does
not. -/
theorem c4_witness :
    filter_commits_by_prefix c4RepoW [commitA, commitB, commitC] vendorLib
        = .ok [(commitA, true), (commitB, false), (commitC, true)] ∧
    ([(commitA, true), (commitB, false), (commitC, true)] :
        List (Commit × Bool)).length = ([commitA, commitB, commitC]).length ∧
    ∀ i (hi : i < ([commitA, commitB, commitC] : List Commit).length)
      (hi2 : i < ([(commitA, true), (commitB, false), (commitC, true)] :
        List (Commit × Bool)).length),
      (([(commitA, true), (commitB, false), (commitC, true)] :
          List (Commit × Bool)).get ⟨i, hi2⟩).1
        = ([commitA, commitB, commitC] :  List Commit).get ⟨i, hi⟩ ∧
      ((([(commitA, true), (commitB, false), (commitC, true)] :
          List (Commit × Bool)).get ⟨i, hi2⟩).2 = true ↔
        ∃ pt, comparison_tree c4RepoW
            (([commitA, commitB, commitC] : List Commit).get ⟨i, hi⟩) = .ok pt ∧
          diffList pt (([commitA, commitB, commitC] :
            List Commit).get ⟨i, hi⟩).tree vendorLib ≠ []) :=
  ⟨by decide,
   c4_filter_spec c4RepoW [commitA, commitB, commitC] vendorLib
     [(commitA, true), (commitB, false), (commitC, true)] (by decide)⟩

/-! ### Claim theorems: backend -/

/-- C6: for a store that is not git-backed, the factory returns the local
backend: its support query is false and every fetch and push, whatever
the arguments, performs no subprocess activity and fails with
`RemoteNotSupported`. -/
theorem c6_local_backend_contract (store : StoreModel)
    (h : store.gitBacked = false) :
    (create_subtree_backend store).supports_remote_operations = false ∧
    (∀ env repository remote_ref,
      (create_subtree_backend store).fetch_remote env repository remote_ref
        = ([], .error .RemoteNotSupported)) ∧
    (∀ env repository local_commit remote_ref force,
      (create_subtree_backend store).push_remote env repository local_commit
          remote_ref force
        = ([], .error .RemoteNotSupported)) := by
  unfold create_subtree_backend
  rw [h]
  exact ⟨rfl, fun _ _ _ => rfl, fun _ _ _ _ _ => rfl⟩

/-- Witness for C6 at a concrete non-git store and concrete arguments. -/
theorem c6_witness :
    (create_subtree_backend ⟨false⟩).supports_remote_operations = false ∧
    (create_subtree_backend ⟨false⟩).fetch_remote envOkW (strOf "r")
        (strOf "main") = ([], .error .RemoteNotSupported) ∧
    (create_subtree_backend ⟨false⟩).push_remote envOkW (strOf "r") idA
        (strOf "main") false = ([], .error .RemoteNotSupported) :=
  ⟨(c6_local_backend_contract ⟨false⟩ rfl).1,
   (c6_local_backend_contract ⟨false⟩ rfl).2.1 envOkW (strOf "r") (strOf "main"),
   (c6_local_backend_contract ⟨false⟩ rfl).2.2 envOkW (strOf "r") idA
     (strOf "main") false⟩

/-- C7: whenever the ephemeral remote registration was created (the setup
phase succeeded), both the fetch and the push implementation run the
attempt and then remove the registration as their final subprocess
action before returning, and the attempt's result — error included — is
returned unchanged. -/
theorem c7_cleanup_on_all_paths (env : GitEnv) (repository remote_ref : Str)
    (local_commit : CommitId) (force : Bool)
    (h : (setup_temp_remote env repository).2 = .ok ()) :
    fetch_impl env repository remote_ref
      = ((setup_temp_remote env repository).1
          ++ (fetch_from_temp_remote env remote_ref).1 ++ [GitCmd.remoteRemove],
         (fetch_from_temp_remote env remote_ref).2) ∧
    push_impl env repository local_commit remote_ref force
      = ((setup_temp_remote env repository).1
          ++ (push_to_temp_remote env local_commit remote_ref force).1
          ++ [GitCmd.remoteRemove],
         (push_to_temp_remote env local_commit remote_ref force).2) := by
  have hp : ((setup_temp_remote env repository).1,
      (setup_temp_remote env repository).2)
      = setup_temp_remote env repository := Prod.mk.eta
  rw [h] at hp
  have hs := hp.symm
  constructor
  · unfold fetch_impl
    rw [hs]
    rfl
  · unfold push_impl
    rw [hs]
    rfl

/-- Witness for C7 at a concrete oracle whose invocations all succeed. -/
theorem c7_witness :
    (setup_temp_remote envOkW (strOf "https://example.com/repo.git")).2
        = .ok () ∧
    fetch_impl envOkW (strOf "https://example.com/repo.git") (strOf "main")
      = ((setup_temp_remote envOkW (strOf "https://example.com/repo.git")).1
          ++ (fetch_from_temp_remote envOkW (strOf "main")).1
          ++ [GitCmd.remoteRemove],
         (fetch_from_temp_remote envOkW (strOf "main")).2) ∧
    push_impl envOkW (strOf "https://example.com/repo.git") idA (strOf "main")
        false
      = ((setup_temp_remote envOkW (strOf "https://example.com/repo.git")).1
          ++ (push_to_temp_remote envOkW idA (strOf "main") false).1
          ++ [GitCmd.remoteRemove],
         (push_to_temp_remote envOkW idA (strOf "main") false).2) :=
  ⟨rfl,
   (c7_cleanup_on_all_paths envOkW (strOf "https://example.com/repo.git")
     (strOf "main") idA false rfl).1,
   (c7_cleanup_on_all_paths envOkW (strOf "https://example.com/repo.git")
     (strOf "main") idA false rfl).2⟩

/-- C8 evidence: a failed fetch attempt surfaces
`FetchFailed` — and a failed push attempt `PushFailed` — whose
`repository` field is the constant temp remote name `jj-subtree-temp`,
which differs from the caller-supplied repository argument. -/
theorem c8_repository_field_bug :
    (fetch_impl envFetchFailW (strOf "https://example.com/repo.git")
        (strOf "main")).2
      = .error (.FetchFailed (strOf "jj-subtree-temp") (strOf "boom")) ∧
    (push_impl envPushFailW (strOf "https://example.com/repo.git") idA
        (strOf "main") false).2
      = .error (.PushFailed (strOf "jj-subtree-temp") (strOf "denied")) ∧
    strOf "jj-subtree-temp" ≠ strOf "https://example.com/repo.git" :=
  ⟨by decide, by decide, by decide⟩
